import Mathlib

/-!
Shallow embedding of the mercator_db multi-resolution spatial index core
(src/database/space_db.rs, src/database/space/position.rs,
src/database/space/shape.rs), together with proofs about the claims on the
natural-language specification.

Conventions of the embedding:
* Machine integers are modelled as `ℕ`/`ℤ` (with explicit truncation where the
  source truncates); `f64` quantities produced by exact conversions from grid
  integers are modelled as `ℚ` (the spec guarantees integer→float→integer
  round-trips exactly on the range used by the index).
* Panics (out-of-range indexing, failed `unwrap`, violated `assert!`) are
  modelled by `Option`: `none` is a fatal abort.
* `Result<T, String>` is modelled by `Except String T`.
-/

/-! Section: Coordinate

Modelled from the spec: `coordinate.rs` is not part of the given sources.
Per the spec (§3, §4.1) a Coordinate is a scalar with interchangeable integer
and float views, totally ordered by the integer view, and the index only ever
stores grid (integer-valued, non-negative in range) coordinates, with exact
view round-trips on `[0, 2^53)`.  We model the scalar as `ℤ`: the `u64` view
is `Int.toNat` (saturating at 0, matching the spec's "saturating" language for
the unsigned view), the `f64` view is the exact cast into `ℚ`.
`reduce_precision k` is a right shift of the integer view by `k` bits. -/
abbrev Coordinate := ℤ

def Coordinate.u64 (c : Coordinate) : ℕ := c.toNat

def Coordinate.f64 (c : Coordinate) : ℚ := (c : ℚ)

def Coordinate.reduce_precision (c : Coordinate) (k : ℕ) : Coordinate :=
  ((c.toNat >>> k : ℕ) : ℤ)

/-! Section: Position  (src/database/space/position.rs)

The source declares fixed-arity variants `Position1 .. Position8` plus the
generic `PositionN(Vec<Coordinate>)`.  Every operation in the source treats
the variants `Position2 .. Position8` and `PositionN` identically (array
indexing with a bounds check, `dimensions` = stored length), so they are
collapsed into the single constructor `positionN`.  `Position1` is kept as a
separate constructor because its `Index`/`IndexMut` implementations return the
single coordinate while *ignoring* the requested index `k` — an observable
difference the claims C9/C10 are about. -/
inductive Position where
  | position1 (c : Coordinate)
  | positionN (cs : List Coordinate)
deriving DecidableEq, Repr

def Position.dimensions : Position → ℕ
  | .position1 _ => 1
  | .positionN cs => cs.length

/-- The coordinate list underlying a Position (the source's
`From<&Position> for Vec<&Coordinate>`). -/
def Position.coords : Position → List Coordinate
  | .position1 c => [c]
  | .positionN cs => cs

/-- The source's `From<Vec<Coordinate>> for Position`: a 1-element vector
becomes `Position1`; longer (or empty) vectors keep their list of
coordinates (arities 2..8 being collapsed into `positionN`). -/
def Position.ofCoords : List Coordinate → Position
  | [c] => .position1 c
  | cs => .positionN cs

/-- Source `impl Index<usize> for Position`: `Position1` returns its single
coordinate regardless of `k`; for vector-backed positions an out-of-range
index is a fatal abort (`none`). -/
def Position.get : Position → ℕ → Option Coordinate
  | .position1 c, _ => some c
  | .positionN cs, k => cs[k]?

/-- Source `impl IndexMut<usize> for Position` followed by an assignment:
`Position1` writes its single coordinate regardless of `k`; vector-backed
positions abort (`none`) when `k` is out of range. -/
def Position.set : Position → ℕ → Coordinate → Option Position
  | .position1 _, _, v => some (.position1 v)
  | .positionN cs, k, v =>
      if k < cs.length then some (.positionN (cs.set k v)) else none

/-- Rebuild a position with the same representation (constructor) as `p` from
a coordinate list; used for the elementwise in-place loops of the source,
which keep the representation of the mutated operand. -/
def Position.ofSame : Position → List Coordinate → Position
  | .position1 _, l => .position1 (l.headD 0)
  | .positionN _, l => .positionN l

/-- Modelled from the spec (§4.2, `Position::reduce_precision` is not in the
given sources): elementwise `Coordinate.reduce_precision`. -/
def Position.reduce_precision (p : Position) (k : ℕ) : Position :=
  Position.ofSame p (p.coords.map (fun c => c.reduce_precision k))

/-- Unchecked elementwise subtraction (the value computed by `Sub for
Position` when the dimension assertion passes). -/
def Position.subU (p q : Position) : Position :=
  Position.ofSame p (List.zipWith (fun a b => a - b) p.coords q.coords)

/-- Source `Sub for Position` (via `SubAssign`): asserts equal dimensions (fatal on
mismatch), then subtracts elementwise. -/
def Position.sub (p q : Position) : Option Position :=
  if p.dimensions = q.dimensions then some (p.subU q) else none

/-- Unchecked elementwise addition. -/
def Position.addU (p q : Position) : Position :=
  Position.ofSame p (List.zipWith (fun a b => a + b) p.coords q.coords)

/-- Source `Add for Position` (via `AddAssign`): asserts equal dimensions. -/
def Position.add (p q : Position) : Option Position :=
  if p.dimensions = q.dimensions then some (p.addU q) else none

/-- Sum of squared coordinates; `p.norm()` of the source is the real square
root of `(p.sumSq : ℝ)` (all stored coordinates convert exactly). -/
def Position.sumSq (p : Position) : ℤ :=
  (p.coords.map (fun c => c * c)).sum

/-- Source `impl PartialEq for Position`, inner loop: compare indices
`i, i+1, ..., i+n-1` of `p` and `q`; `some false` on the first mismatch,
`none` if an index read aborts, `some true` when all `n` comparisons pass. -/
def Position.eqAux (p q : Position) : ℕ → ℕ → Option Bool
  | _, 0 => some true
  | i, n + 1 =>
      match p.get i, q.get i with
      | some a, some b =>
          if a ≠ b then some false else Position.eqAux p q (i + 1) n
      | _, _ => none

/-- Source `impl PartialEq for Position`: iterate `i` over `0 .. self.dimensions()`,
comparing `self[i]` with `other[i]`; the dimensions of `other` are never
checked. -/
def Position.eq (p q : Position) : Option Bool :=
  Position.eqAux p q 0 p.dimensions

/-! Section: SpaceSetObject

Modelled from the spec (§3): `space_index.rs` is not in the given sources.
A SpaceSetObject is a `(Position, value)` pair, with structural
equality/hashing over the pair. -/
structure SpaceSetObject where
  position : Position
  value : Coordinate
deriving DecidableEq, Repr

def SpaceSetObject.set_value (o : SpaceSetObject) (v : Coordinate) : SpaceSetObject :=
  ⟨o.position, v⟩

def SpaceSetObject.set_position (o : SpaceSetObject) (p : Position) : SpaceSetObject :=
  ⟨p, o.value⟩

/-! Section: Linear first-index search

`firstIdx p l` is the index of the first element of `l` satisfying `p`.
It models both the source's `for i in 0..len { if cond(i) { return i } }`
scans and (on the sorted, duplicate-free lists the source searches)
`Vec::binary_search`, which is extensionally the same function there. -/
def firstIdx (p : α → Bool) : List α → Option ℕ
  | [] => none
  | a :: l => if p a then some 0 else (firstIdx p l).map (· + 1)

theorem firstIdx_none {p : α → Bool} : ∀ {l : List α}, firstIdx p l = none → ∀ x ∈ l, p x = false := by
  intro l
  induction l with
  | nil => intro _ x hx; cases hx
  | cons a l ih =>
      intro h x hx
      simp only [firstIdx] at h
      by_cases hpa : p a
      · simp [hpa] at h
      · rcases List.mem_cons.mp hx with rfl | hx
        · simpa using hpa
        · cases hfa : firstIdx p l with
          | none => exact ih hfa x hx
          | some j => simp [hpa, hfa] at h

theorem firstIdx_some {p : α → Bool} (d : α) :
    ∀ {l : List α} {i : ℕ}, firstIdx p l = some i →
      i < l.length ∧ p (l.getD i d) = true ∧ ∀ j, j < i → p (l.getD j d) = false := by
  intro l
  induction l with
  | nil => intro i h; cases h
  | cons a l ih =>
      intro i h
      simp only [firstIdx] at h
      by_cases hpa : p a
      · simp only [hpa, if_pos] at h
        cases h
        exact ⟨Nat.succ_pos _, by simpa using hpa, fun j hj => absurd hj (Nat.not_lt_zero j)⟩
      · rw [if_neg hpa] at h
        rcases Option.map_eq_some'.mp h with ⟨k, hk, rfl⟩
        rcases ih hk with ⟨hlen, hpk, hbefore⟩
        refine ⟨by simpa using Nat.succ_lt_succ hlen, by simpa using hpk, ?_⟩
        intro j hj
        cases j with
        | zero => simpa using hpa
        | succ j => exact hbefore j (Nat.lt_of_succ_lt_succ hj)

theorem firstIdx_mem {p : α → Bool} (d : α) {l : List α} {i : ℕ} (h : firstIdx p l = some i) :
    l.getD i d ∈ l := by
  rcases firstIdx_some d h with ⟨hlen, -, -⟩
  rw [List.getD_eq_getElem l d hlen]
  exact List.getElem_mem hlen

/-! Section: Bounding-box grid enumeration  (src/database/space/shape.rs, `Shape::gen`)

`Shape::gen` first compacts `lower` through the `u64` view of each
coordinate, then repeatedly applies the odometer step `next`: walk the
dimensions from last to first, increment the current digit, reset it to
`lower[i]` and carry when it reaches `higher[i]` (comparison on the integer
view), stop incrementing otherwise; the whole enumeration ends when the
first dimension carries out.  Since the loop state is a vector of `u64`
values, the step is embedded on `List ℕ`.  `nextL` is the functional
rendering of the `for i in (0..dimensions).rev()` loop: it processes the
trailing dimensions first (the recursive call) and carries into the head. -/
def nextL : List ℕ → List ℕ → List ℕ → Option (List ℕ)
  | x :: xs, l :: ls, b :: hs =>
      match nextL xs ls hs with
      | some t => some (x :: t)
      | none => if x + 1 ≥ b then none else some ((x + 1) :: ls)
  | _, _, _ => none

/-- Number of grid points the odometer over bounds `(ls, hs)` emits: the
product over the dimensions of `max (l+1) h - l` (a dimension whose upper
bound does not exceed its lower bound still contributes one pinned value). -/
def boxW : List ℕ → List ℕ → ℕ
  | l :: ls, b :: hs => (max (l + 1) b - l) * boxW ls hs
  | _, _ => 1

/-- Termination measure for the odometer: mixed-radix distance of the state
from the final state (all digits at their maxima). -/
def boxMu : List ℕ → List ℕ → List ℕ → ℕ
  | x :: xs, l :: ls, b :: hs => (max (l + 1) b - 1 - x) * boxW ls hs + boxMu xs ls hs
  | _, _, _ => 0

theorem boxW_pos : ∀ ls hs, 1 ≤ boxW ls hs := by
  intro ls
  induction ls with
  | nil => intro hs; cases hs <;> simp [boxW]
  | cons l ls ih =>
      intro hs
      cases hs with
      | nil => simp [boxW]
      | cons b hs =>
          have h1 : 1 ≤ max (l + 1) b - l := by
            have : l + 1 ≤ max (l + 1) b := le_max_left _ _
            omega
          simpa [boxW] using Nat.mul_le_mul h1 (ih hs)

theorem boxMu_lower_lt : ∀ ls hs, boxMu ls ls hs < boxW ls hs := by
  intro ls
  induction ls with
  | nil => intro hs; cases hs <;> simp [boxMu, boxW]
  | cons l ls ih =>
      intro hs
      cases hs with
      | nil => simp [boxMu, boxW]
      | cons b hs =>
          have hW := boxW_pos ls hs
          have hmu := ih hs
          have hA : 1 ≤ max (l + 1) b - l := by
            have : l + 1 ≤ max (l + 1) b := le_max_left _ _
            omega
          have hhead : max (l + 1) b - 1 - l = max (l + 1) b - l - 1 := by omega
          calc boxMu (l :: ls) (l :: ls) (b :: hs)
              = (max (l + 1) b - l - 1) * boxW ls hs + boxMu ls ls hs := by
                simp [boxMu, hhead]
            _ < (max (l + 1) b - l - 1) * boxW ls hs + boxW ls hs := by
                exact Nat.add_lt_add_left hmu _
            _ = (max (l + 1) b - l - 1 + 1) * boxW ls hs := by
                rw [Nat.succ_mul]
            _ = (max (l + 1) b - l) * boxW ls hs := by
                rw [Nat.sub_add_cancel hA]
            _ = boxW (l :: ls) (b :: hs) := by simp [boxW]

theorem nextL_mu : ∀ {s ls hs t : List ℕ}, nextL s ls hs = some t →
    boxMu t ls hs < boxMu s ls hs := by
  intro s
  induction s with
  | nil => intro ls hs t h; simp [nextL] at h
  | cons x xs ih =>
      intro ls hs t h
      cases ls with
      | nil => simp [nextL] at h
      | cons l ls =>
          cases hs with
          | nil => simp [nextL] at h
          | cons b hs =>
              simp only [nextL] at h
              cases hrec : nextL xs ls hs with
              | some u =>
                  rw [hrec] at h
                  cases h
                  have hlt := ih hrec
                  simp only [boxMu]
                  exact Nat.add_lt_add_left hlt _
              | none =>
                  rw [hrec] at h
                  by_cases hb : x + 1 ≥ b
                  · simp [hb] at h
                  · simp only [hb, if_neg, if_false] at h
                    cases h
                    have hxb : x + 1 < b := by omega
                    have hW := boxW_pos ls hs
                    have hml := boxMu_lower_lt ls hs
                    have hx1 : x + 1 < max (l + 1) b := lt_of_lt_of_le hxb (le_max_right _ _)
                    have hhead : max (l + 1) b - 1 - (x + 1) + 1 = max (l + 1) b - 1 - x := by
                      omega
                    calc boxMu ((x + 1) :: ls) (l :: ls) (b :: hs)
                        = (max (l + 1) b - 1 - (x + 1)) * boxW ls hs + boxMu ls ls hs := by
                          simp [boxMu]
                      _ < (max (l + 1) b - 1 - (x + 1)) * boxW ls hs + boxW ls hs := by
                          exact Nat.add_lt_add_left hml _
                      _ = (max (l + 1) b - 1 - (x + 1) + 1) * boxW ls hs := by
                          rw [Nat.succ_mul]
                      _ = (max (l + 1) b - 1 - x) * boxW ls hs := by rw [hhead]
                      _ ≤ (max (l + 1) b - 1 - x) * boxW ls hs + boxMu xs ls hs :=
                          Nat.le_add_right _ _
                      _ = boxMu (x :: xs) (l :: ls) (b :: hs) := by simp [boxMu]

/-- The `gen` while-loop: push the current state, step the odometer, repeat
until the odometer carries out of the first dimension. -/
def genRun (ls hs s : List ℕ) : List (List ℕ) :=
  match hnx : nextL s ls hs with
  | none => [s]
  | some t => s :: genRun ls hs t
termination_by boxMu s ls hs
decreasing_by exact nextL_mu hnx

theorem genRun_of_none {ls hs s : List ℕ} (h : nextL s ls hs = none) :
    genRun ls hs s = [s] := by
  rw [genRun, h]

theorem genRun_of_some {ls hs s : List ℕ} (t : List ℕ) (h : nextL s ls hs = some t) :
    genRun ls hs s = s :: genRun ls hs t := by
  rw [genRun, h]

theorem nextL_cons (x b l : ℕ) (s ls hs : List ℕ) :
    nextL (x :: s) (l :: ls) (b :: hs) =
      match nextL s ls hs with
      | some t => some (x :: t)
      | none => if x + 1 ≥ b then none else some ((x + 1) :: ls) := rfl

/-- Splitting a run of the odometer at its first dimension: first all states
sharing the current first digit, then (if the first digit can still be
incremented) the run restarting from the incremented digit with the trailing
dimensions reset to their lower bounds. -/
theorem genRun_cons (l b : ℕ) (ls hs : List ℕ) :
    ∀ n s x, boxMu s ls hs ≤ n →
      genRun (l :: ls) (b :: hs) (x :: s) =
        (genRun ls hs s).map (x :: ·) ++
          (if x + 1 < b then genRun (l :: ls) (b :: hs) ((x + 1) :: ls) else []) := by
  intro n
  induction n with
  | zero =>
      intro s x hle
      cases hnx : nextL s ls hs with
      | some t => exact absurd (nextL_mu hnx) (by omega)
      | none =>
          rw [genRun_of_none hnx]
          by_cases hb : x + 1 ≥ b
          · rw [genRun_of_none (by rw [nextL_cons, hnx]; simp [hb])]
            simp [show ¬ (x + 1 < b) by omega]
          · rw [genRun_of_some ((x + 1) :: ls) (by rw [nextL_cons, hnx]; simp [hb])]
            simp [show x + 1 < b by omega]
  | succ n ih =>
      intro s x hle
      cases hnx : nextL s ls hs with
      | some t =>
          have hmu := nextL_mu hnx
          rw [genRun_of_some (x :: t) (by rw [nextL_cons, hnx])]
          rw [genRun_of_some t hnx]
          rw [ih t x (by omega)]
          simp
      | none =>
          rw [genRun_of_none hnx]
          by_cases hb : x + 1 ≥ b
          · rw [genRun_of_none (by rw [nextL_cons, hnx]; simp [hb])]
            simp [show ¬ (x + 1 < b) by omega]
          · rw [genRun_of_some ((x + 1) :: ls) (by rw [nextL_cons, hnx]; simp [hb])]
            simp [show x + 1 < b by omega]

/-- Specification-side enumeration of the grid box: all digit vectors `s`
with `ls[k] ≤ s[k] < max (ls[k]+1) (hs[k])`, in lexicographic order with the
last dimension varying fastest (first dimension outermost).  This is the
list the spec's words for `rasterise(BoundingBox)` describe, adjusted for
the degenerate dimensions (see claim C4). -/
def boxEnum : List ℕ → List ℕ → List (List ℕ)
  | l :: ls, b :: hs =>
      (List.range' l (max (l + 1) b - l)).flatMap
        (fun x => (boxEnum ls hs).map (x :: ·))
  | _, _ => [[]]

theorem boxEnum_exists_mem : ∀ ls hs : List ℕ, ∃ t, t ∈ boxEnum ls hs := by
  intro ls
  induction ls with
  | nil => intro hs; exact ⟨[], by cases hs <;> simp [boxEnum]⟩
  | cons l ls ih =>
      intro hs
      cases hs with
      | nil => exact ⟨[], by simp [boxEnum]⟩
      | cons b hs =>
          rcases ih hs with ⟨t, ht⟩
          refine ⟨l :: t, ?_⟩
          simp only [boxEnum, List.mem_flatMap]
          refine ⟨l, ?_, List.mem_map_of_mem _ ht⟩
          rw [List.mem_range'_1]
          have : l + 1 ≤ max (l + 1) b := le_max_left _ _
          omega

theorem genRun_from (l b : ℕ) (ls hs : List ℕ) (hbox : genRun ls hs ls = boxEnum ls hs) :
    ∀ m x, l ≤ x → x < max (l + 1) b → max (l + 1) b - x ≤ m →
      genRun (l :: ls) (b :: hs) (x :: ls) =
        (List.range' x (max (l + 1) b - x)).flatMap
          (fun y => (boxEnum ls hs).map (y :: ·)) := by
  intro m
  induction m with
  | zero => intro x hlx hxH hm; omega
  | succ m ih =>
      intro x hlx hxH hm
      rw [genRun_cons l b ls hs (boxMu ls ls hs) ls x le_rfl, hbox]
      by_cases hb : x + 1 < b
      · have hx1H : x + 1 < max (l + 1) b := lt_of_lt_of_le hb (le_max_right _ _)
        rw [ih (x + 1) (by omega) hx1H (by omega)]
        have hrange : List.range' x (max (l + 1) b - x) =
            x :: List.range' (x + 1) (max (l + 1) b - (x + 1)) := by
          have h1 : max (l + 1) b - x = (max (l + 1) b - (x + 1)) + 1 := by omega
          rw [h1, List.range'_succ]
        rw [hrange, List.flatMap_cons]
        simp [hb]
      · have hH : max (l + 1) b = x + 1 := by
          have h1 : l + 1 ≤ x + 1 := by omega
          have h2 : max (l + 1) b ≤ x + 1 := by
            rcases max_cases (l + 1) b with ⟨he, -⟩ | ⟨he, -⟩ <;> omega
          omega
        have hrange : List.range' x (max (l + 1) b - x) = [x] := by
          rw [hH]
          simp
        rw [hrange, List.flatMap_cons]
        simp [hb]

/-- The source's odometer, started at the (compacted) lower corner, emits
exactly the specification's lexicographic box enumeration. -/
theorem genRun_eq_boxEnum : ∀ ls hs : List ℕ, ls.length = hs.length →
    genRun ls hs ls = boxEnum ls hs := by
  intro ls
  induction ls with
  | nil =>
      intro hs hlen
      cases hs with
      | nil => rw [genRun_of_none (by simp [nextL])]; simp [boxEnum]
      | cons b hs => simp at hlen
  | cons l ls ih =>
      intro hs hlen
      cases hs with
      | nil => simp at hlen
      | cons b hs =>
          have hbox := ih hs (by simpa using hlen)
          have hmain := genRun_from l b ls hs hbox (max (l + 1) b - l) l le_rfl
            (lt_of_lt_of_le (Nat.lt_succ_self l) (le_max_left _ _)) le_rfl
          rw [hmain]
          rfl

/-- Membership in the specification enumeration: exactly the digit vectors
lying in the (degenerate-dimension-adjusted) half-open box. -/
theorem boxEnum_mem_iff : ∀ ls hs : List ℕ, ls.length = hs.length → ∀ s : List ℕ,
    (s ∈ boxEnum ls hs ↔ s.length = ls.length ∧
      ∀ k, k < ls.length →
        ls.getD k 0 ≤ s.getD k 0 ∧ s.getD k 0 < max (ls.getD k 0 + 1) (hs.getD k 0)) := by
  intro ls
  induction ls with
  | nil =>
      intro hs hlen s
      cases hs with
      | nil =>
          simp only [boxEnum, List.mem_singleton, List.length_nil]
          constructor
          · rintro rfl
            exact ⟨rfl, fun k hk => absurd hk (Nat.not_lt_zero k)⟩
          · rintro ⟨hl, -⟩
            exact List.eq_nil_of_length_eq_zero hl
      | cons b hs => simp at hlen
  | cons l ls ih =>
      intro hs hlen s
      cases hs with
      | nil => simp at hlen
      | cons b hs =>
          have hlen' : ls.length = hs.length := by simpa using hlen
          constructor
          · intro hmem
            simp only [boxEnum, List.mem_flatMap, List.mem_map] at hmem
            rcases hmem with ⟨y, hy, t, ht, rfl⟩
            rw [List.mem_range'_1] at hy
            have hyH : y < max (l + 1) b := by
              have hle : l ≤ max (l + 1) b := le_trans (Nat.le_succ l) (le_max_left _ _)
              omega
            rcases (ih hs hlen' t).mp ht with ⟨htl, htb⟩
            refine ⟨by simpa using htl, ?_⟩
            intro k hk
            cases k with
            | zero =>
                simp only [List.getD_cons_zero]
                exact ⟨hy.1, hyH⟩
            | succ k => simpa using htb k (by simpa using hk)
          · rintro ⟨hl, hb⟩
            cases s with
            | nil => simp at hl
            | cons y t =>
                simp only [boxEnum, List.mem_flatMap, List.mem_map]
                have h0 := hb 0 (Nat.succ_pos _)
                simp only [List.getD_cons_zero] at h0
                refine ⟨y, ?_, t, ?_, rfl⟩
                · rw [List.mem_range'_1]
                  have : l ≤ max (l + 1) b := le_trans (Nat.le_succ l) (le_max_left _ _)
                  omega
                · refine (ih hs hlen' t).mpr ⟨by simpa using hl, ?_⟩
                  intro k hk
                  have := hb (k + 1) (by simpa using hk)
                  simpa using this

/-- Every state emitted by the odometer has the dimension of the start
state (given well-formed bounds). -/
theorem genRun_length {ls hs : List ℕ} (hlen : ls.length = hs.length) :
    ∀ s ∈ genRun ls hs ls, s.length = ls.length := by
  intro s hs1
  rw [genRun_eq_boxEnum ls hs hlen] at hs1
  exact ((boxEnum_mem_iff ls hs hlen s).mp hs1).1

/-! Section: Shape  (src/database/space/shape.rs) -/
inductive Shape where
  | point (p : Position)
  | hyperSphere (center : Position) (radius : Coordinate)
  | boundingBox (lower higher : Position)
deriving DecidableEq, Repr

/-- Source `Shape::get_mbb`: the minimum bounding box.  For a hypersphere the
all-`radius` vector is built with the center's dimension and added to /
subtracted from the center (the source's `Add`/`Sub` for `Position`, which
assert equal dimensions — hence the `Option`). -/
def Shape.get_mbb : Shape → Option (Position × Position)
  | .point p => some (p, p)
  | .hyperSphere c r =>
      let vr := Position.ofCoords (List.replicate c.dimensions r)
      match c.sub vr, c.add vr with
      | some lo, some hi => some (lo, hi)
      | _, _ => none
  | .boundingBox lo hi => some (lo, hi)

/-- Source `Shape::gen`: compact `lower` through the `u64` view of its coordinates
(the source's inner `first`), then run the odometer; every emitted `u64`
vector is turned back into a `Position` (the source's `current.into()`).
Comparisons against `higher` inside the odometer use the integer view, hence
`higher` enters through `Coordinate.u64` as well. -/
def Shape.gen (lower higher : Position) : List Position :=
  (genRun (lower.coords.map Coordinate.u64) (higher.coords.map Coordinate.u64)
      (lower.coords.map Coordinate.u64)).map
    (fun s => Position.ofCoords (s.map Int.ofNat))

/-- The filter predicate of `Shape::rasterise` for hyperspheres:
`(p - c).norm() <= radius.f64()`.  Both sides are non-negative reals, so the
comparison is the exact squared comparison `sumSq ≤ r²` together with
`0 ≤ r`; see `normLeB_iff_sqrt` below. -/
def normLeB (d : Position) (r : Coordinate) : Bool :=
  decide (0 ≤ r ∧ d.sumSq ≤ r * r)

/-- The `filter` of `Shape::rasterise` for hyperspheres: subtract the center
from every candidate (fatal on dimension mismatch, which never happens) and
keep the candidates within the radius. -/
def raster_filter : List Position → Position → Coordinate → Option (List Position)
  | [], _, _ => some []
  | p :: ps, center, radius =>
      match p.sub center with
      | none => none
      | some d =>
          match raster_filter ps center radius with
          | none => none
          | some rest => some (if normLeB d radius then p :: rest else rest)

/-- Source `Shape::rasterise`. -/
def Shape.rasterise : Shape → Option (List Position)
  | .point p => some [p]
  | .hyperSphere c r =>
      match Shape.get_mbb (.hyperSphere c r) with
      | none => none
      | some (lo, hi) => raster_filter (Shape.gen lo hi) c r
  | .boundingBox lo hi => some (Shape.gen lo hi)

/-- Modelled from the spec: `Shape::contains` is used by the viewport filter
of `SpaceDB::get_by_id` but is not among the given sources.  Containment
follows the spec's geometry: a point contains only itself, a hypersphere
contains the positions within its radius, a bounding box contains the
positions between its corners componentwise. -/
def Shape.contains : Shape → Position → Bool
  | .point p, q => decide (p = q)
  | .hyperSphere c r, q =>
      match q.sub c with
      | some d => normLeB d r
      | none => false
  | .boundingBox lo hi, q =>
      decide (lo.dimensions = q.dimensions ∧ hi.dimensions = q.dimensions ∧
        ∀ k, k < q.dimensions →
          lo.coords.getD k 0 ≤ q.coords.getD k 0 ∧ q.coords.getD k 0 ≤ hi.coords.getD k 0)

theorem coords_length (p : Position) : p.coords.length = p.dimensions := by
  cases p <;> simp [Position.coords, Position.dimensions]

theorem ofCoords_dimensions (l : List Coordinate) :
    (Position.ofCoords l).dimensions = l.length := by
  match l with
  | [c] => simp [Position.ofCoords, Position.dimensions]
  | [] => simp [Position.ofCoords, Position.dimensions]
  | c1 :: c2 :: cs => simp [Position.ofCoords, Position.dimensions]

theorem ofSame_dimensions (p : Position) (l : List Coordinate)
    (h : l.length = p.dimensions) : (Position.ofSame p l).dimensions = p.dimensions := by
  cases p with
  | position1 c => simp [Position.ofSame, Position.dimensions]
  | positionN cs => simpa [Position.ofSame, Position.dimensions] using h

theorem subU_dimensions (p q : Position) (h : p.dimensions = q.dimensions) :
    (p.subU q).dimensions = p.dimensions := by
  apply ofSame_dimensions
  rw [List.length_zipWith, coords_length, coords_length, ← h, min_self]

theorem addU_dimensions (p q : Position) (h : p.dimensions = q.dimensions) :
    (p.addU q).dimensions = p.dimensions := by
  apply ofSame_dimensions
  rw [List.length_zipWith, coords_length, coords_length, ← h, min_self]

/-- For a hypersphere the minimum bounding box always exists, both corners
having the center's dimension. -/
theorem hyperSphere_mbb (c : Position) (r : Coordinate) :
    ∃ lo hi, Shape.get_mbb (.hyperSphere c r) = some (lo, hi) ∧
      lo.dimensions = c.dimensions ∧ hi.dimensions = c.dimensions := by
  have hvr : (Position.ofCoords (List.replicate c.dimensions r)).dimensions = c.dimensions := by
    rw [ofCoords_dimensions, List.length_replicate]
  refine ⟨c.subU (Position.ofCoords (List.replicate c.dimensions r)),
          c.addU (Position.ofCoords (List.replicate c.dimensions r)), ?_, ?_, ?_⟩
  · simp [Shape.get_mbb, Position.sub, Position.add, hvr]
  · exact subU_dimensions _ _ hvr.symm
  · exact addU_dimensions _ _ hvr.symm

/-- Every position produced by `Shape.gen` has the dimension of the lower
corner (given both corners share a dimension). -/
theorem gen_dimensions (lo hi : Position) (h : lo.dimensions = hi.dimensions) :
    ∀ p ∈ Shape.gen lo hi, p.dimensions = lo.dimensions := by
  intro p hp
  simp only [Shape.gen, List.mem_map] at hp
  rcases hp with ⟨s, hsmem, rfl⟩
  have hlen : (lo.coords.map Coordinate.u64).length = (hi.coords.map Coordinate.u64).length := by
    simp [coords_length, h]
  have := genRun_length hlen s hsmem
  rw [ofCoords_dimensions, List.length_map, this, List.length_map, coords_length]

/-! Section: Exact model of the `f64` volumes

Every finite `f64` is a dyadic rational, and the only `f64` arithmetic the
embedded code performs on volumes is `V / 2^k` (exact in `f64`: only the
exponent changes) and comparisons (exact).  `F64` therefore models these
values as unnormalized fractions `num / den` with a positive denominator;
`F64.le` is the exact cross-multiplication comparison.  (An unnormalized
representation is used because it is kernel-computable; equality of values
is expressed through `F64.le` both ways, and every claim only needs the
order.) -/
structure F64 where
  num : ℤ
  den : ℕ+
deriving DecidableEq, Repr

def F64.le (a b : F64) : Prop := a.num * (b.den : ℤ) ≤ b.num * (a.den : ℤ)

instance : DecidableRel F64.le := fun a b =>
  inferInstanceAs (Decidable (a.num * (b.den : ℤ) ≤ b.num * (a.den : ℤ)))

/-- Exact division of an `f64` by `2^k` (`f64::from(1 << k)`). -/
def F64.divPow2 (a : F64) (k : ℕ) : F64 := F64.mk a.num (a.den * (2 : ℕ+) ^ k)

/-! Section: Space  (modelled from the spec)

`space.rs` is not among the given sources.  `SpaceDB` uses exactly two of
its operations: `name()` and `volume()` (the total hyperrectangular volume,
an `f64` modelled exactly by `F64`). -/
structure Space where
  name : String
  volume : F64
deriving DecidableEq, Repr

/-! Section: SpaceIndex ladder entry and the index contract
(modelled from the spec §3, §4.5: `space_index.rs` is not among the given
sources).  A ladder entry carries a threshold volume, a scale vector and the
point table; `find` is exact-position lookup and `find_by_value` returns the
points whose value offset matches the fingerprint. -/
structure SpaceIndex where
  threshold : F64
  scale : List ℕ
  inner : List SpaceSetObject
deriving DecidableEq, Repr

structure SpaceFields where
  name : String
  offset : Coordinate
deriving DecidableEq, Repr

def SpaceIndex.find (si : SpaceIndex) (p : Position) : List SpaceSetObject :=
  si.inner.filter (fun o => decide (o.position = p))

def SpaceIndex.find_by_value (si : SpaceIndex) (fields : SpaceFields) : List SpaceSetObject :=
  si.inner.filter (fun o => decide (o.value = fields.offset))

/-! Section: CoreQueryParameters  (modelled from the spec §6:
`database/mod.rs` is not among the given sources).  `db.space(name)` is a
name lookup failing with a descriptive string; `view_port(space)` resolves
the optional viewport Shape (the conversion into the encoded space is the
identity in this model). -/
structure CoreQueryParameters where
  spaces : List (String × Space)
  threshold_volume : Option F64
  view_port : Option Shape
  resolution : Option (List ℕ)

def CoreQueryParameters.space (p : CoreQueryParameters) (name : String) : Except String Space :=
  match p.spaces.find? (fun s => s.1 == name) with
  | some s => Except.ok s.2
  | none => Except.error ("Unknown space " ++ name)

def CoreQueryParameters.view_port_encoded (p : CoreQueryParameters) (s : Space) : Option Shape :=
  p.view_port

instance {e : Type} {a : Type} [DecidableEq e] [DecidableEq a] : DecidableEq (Except e a) :=
  fun x y =>
    match x, y with
    | Except.error u, Except.error v =>
        if h : u = v then isTrue (by rw [h]) else isFalse (by intro hc; cases hc; exact h rfl)
    | Except.ok u, Except.ok v =>
        if h : u = v then isTrue (by rw [h]) else isFalse (by intro hc; cases hc; exact h rfl)
    | Except.error _, Except.ok _ => isFalse (by intro hc; cases hc)
    | Except.ok _, Except.error _ => isFalse (by intro hc; cases hc)

/-! Section: Sorting relations used by `SpaceDB::new` -/

/-- Key order of `values.sort_unstable_by_key(|&c| c.u64())`. -/
def u64Le (a b : Coordinate) : Prop := a.u64 ≤ b.u64

instance : DecidableRel u64Le := fun a b => inferInstanceAs (Decidable (a.u64 ≤ b.u64))

instance : IsTotal Coordinate u64Le := ⟨fun a b => Nat.le_total a.u64 b.u64⟩

instance : IsTrans Coordinate u64Le := ⟨fun _ _ _ h1 h2 => Nat.le_trans h1 h2⟩

/-- Key order of `exps.sort_unstable_by_key(|v| v[0])` (`v[0]` on an empty
scale vector would abort; such vectors are rejected by the assertion just
below in the source, so the defaulted head is only a modelling device). -/
def headLe (a b : List ℕ) : Prop := a.headD 0 ≤ b.headD 0

instance : DecidableRel headLe := fun a b => inferInstanceAs (Decidable (a.headD 0 ≤ b.headD 0))

instance : IsTotal (List ℕ) headLe := ⟨fun a b => Nat.le_total _ _⟩

instance : IsTrans (List ℕ) headLe := ⟨fun _ _ _ h1 h2 => Nat.le_trans h1 h2⟩

/-- Order of the final `resolutions.sort_unstable_by(...partial_cmp...)`
(thresholds are total here, so the `None => Less` fallback of the source is
never taken). -/
def thresholdLe (a b : SpaceIndex) : Prop := F64.le a.threshold b.threshold

instance : DecidableRel thresholdLe := fun a b =>
  inferInstanceAs (Decidable (F64.le a.threshold b.threshold))

instance : IsTotal SpaceIndex thresholdLe := ⟨fun a b => by
  unfold thresholdLe F64.le
  rcases le_total (a.threshold.num * (b.threshold.den : ℤ))
    (b.threshold.num * (a.threshold.den : ℤ)) with h | h
  · exact Or.inl h
  · exact Or.inr h⟩

instance : IsTrans SpaceIndex thresholdLe := ⟨fun a b c h1 h2 => by
  unfold thresholdLe F64.le at h1 h2 ⊢
  have hb : (0 : ℤ) < (b.threshold.den : ℤ) := by exact_mod_cast b.threshold.den.pos
  have ha : (0 : ℤ) ≤ (a.threshold.den : ℤ) := by positivity
  have hc : (0 : ℤ) ≤ (c.threshold.den : ℤ) := by positivity
  nlinarith [mul_le_mul_of_nonneg_right h1 hc, mul_le_mul_of_nonneg_right h2 ha]⟩

/-! Section: SpaceDB  (src/database/space_db.rs) -/
structure SpaceDB where
  reference_space : String
  values : List Coordinate
  resolutions : List SpaceIndex
deriving DecidableEq, Repr

/-- One coarsening step of `SpaceDB::new`: reduce the precision of every
object's position by `k` bits, then deduplicate.  The source deduplicates
by draining a `HashMap` keyed by the object's hash; this is modelled by
`List.dedup` (equal objects collapse to one; the survivor order is
immaterial to every claim, and hash collisions between unequal objects are
ignored). -/
def coarsen_dedup (k : ℕ) (objs : List SpaceSetObject) : List SpaceSetObject :=
  (objs.map (fun o => o.set_position (o.position.reduce_precision k))).dedup

/-- A ladder entry before thresholds are assigned: the point table, the
scale vector, and the bit shift. -/
abbrev IndexEntry := List SpaceSetObject × List ℕ × ℕ

/-- The `powers` computation of the explicit-scales path: each sorted scale
vector is asserted to be 3-wide with equal components (fatal otherwise) and
contributes `(scale[0], scale[0] - previous)`. -/
def build_powers : List (List ℕ) → ℕ → Option (List (ℕ × ℕ))
  | [], _ => some []
  | scale :: rest, previous =>
      if scale.length = 3 ∧ scale.getD 0 0 = scale.getD 1 0 ∧ scale.getD 0 0 = scale.getD 2 0
      then (build_powers rest (scale.getD 0 0)).map
        (fun ps => (scale.getD 0 0, scale.getD 0 0 - previous) :: ps)
      else none

/-- The `for power in &powers` loop of the explicit-scales path: coarsen
incrementally, record `(index, [p, p, p], min(count, 31))`, increment the
level counter. -/
def apply_scales : List (ℕ × ℕ) → List SpaceSetObject → ℕ → List IndexEntry
  | [], _, _ => []
  | power :: rest, objs, count =>
      let objs1 := coarsen_dedup power.2 objs
      let shift := if count ≥ 31 then 31 else count
      (objs1, [power.1, power.1, power.1], shift) :: apply_scales rest objs1 (count + 1)

/-- The auto-path `loop` of `SpaceDB::new`, fuel-limited: since the source's
loop need not terminate (see claim C1), a fuel parameter makes the embedding
total; `none` is an aborted (never-returning or fuel-exhausted) run.  The
loop counter is a `u32` and wraps modulo `2^32`; the body computes the shift
from the pre-increment counter, coarsens by one bit, *skips* (without
reaching the break test) whenever the new element count is still above the
target, and otherwise halves the target, emits a level and stops once the
count is within `max_elements` or the counter has reached `u32::MAX`. -/
def auto_loop (fuel max_elements : ℕ) :
    List SpaceSetObject → ℕ → ℕ → List IndexEntry → Option (List IndexEntry) :=
  match fuel with
  | 0 => fun _ _ _ _ => none
  | fuel + 1 => fun objs target count indices =>
      let shift := if count ≥ 31 then 31 else count
      let count1 := (count + 1) % 2 ^ 32
      let objs1 := coarsen_dedup 1 objs
      if target < objs1.length then
        auto_loop fuel max_elements objs1 target count1 indices
      else
        let target1 := objs1.length / 2
        let indices1 := indices ++ [(objs1, [count1, count1, count1], shift)]
        if objs1.length ≤ max_elements ∨ count1 = 2 ^ 32 - 1 then some indices1
        else auto_loop fuel max_elements objs1 target1 count1 indices1

/-- The `for_each` rewriting every object's value into its binary-search
position inside `values` (the `unwrap` of the source is the `none` case). -/
def rewrite_values (values : List Coordinate) : List SpaceSetObject → Option (List SpaceSetObject)
  | [] => some []
  | o :: os =>
      match firstIdx (fun c => c == o.value) values with
      | none => none
      | some i => (rewrite_values values os).map (fun rest => o.set_value (Int.ofNat i) :: rest)

/-- The final phase of `SpaceDB::new`: read `max_shift` off the *last*
emitted level, give each level the threshold `V / 2^(max_shift - shift)`
and sort by ascending threshold. -/
def assemble_resolutions (volume : F64) (indices : List IndexEntry) : List SpaceIndex :=
  let max_shift := match indices.getLast? with
    | none => 31
    | some e => e.2.2
  List.insertionSort thresholdLe (indices.map (fun e =>
    SpaceIndex.mk (F64.divPow2 volume (max_shift - e.2.2)) e.2.1 e.1))

/-- Source `SpaceDB::new`.  The value dictionary is the deduplicated value set
sorted ascending by the `u64` view; every object's value is rewritten to its
dictionary offset; the ladder is built by one of the three paths (explicit
scales / auto with `max_elements` / full-resolution only); thresholds are
`V / 2^(max_shift - shift)` with `max_shift` the shift of the *last* emitted
level; finally the ladder is sorted by ascending threshold.  `fuel` bounds
the auto-path loop (see `auto_loop`); all other paths ignore it. -/
def SpaceDB.new (reference_space : Space) (space_objects : List SpaceSetObject)
    (scales : Option (List (List ℕ))) (max_elements : Option ℕ) (fuel : ℕ) :
    Option SpaceDB :=
  let values := List.insertionSort u64Le (space_objects.map (fun o => o.value)).dedup
  match rewrite_values values space_objects with
  | none => none
  | some objs =>
    let indicesOpt : Option (List IndexEntry) :=
      match scales with
      | some scales =>
          match build_powers (List.insertionSort headLe scales) 0 with
          | none => none
          | some powers => some (apply_scales powers objs 0)
      | none =>
          match max_elements with
          | some max_elements =>
              auto_loop fuel (max max_elements values.length) objs (objs.length / 2) 0
                [(objs, [0, 0, 0], 0)]
          | none => some [(objs, [0, 0, 0], 0)]
    match indicesOpt with
    | none => none
    | some indices =>
        some (SpaceDB.mk reference_space.name values
          (assemble_resolutions reference_space.volume indices))

def SpaceDB.name (db : SpaceDB) : String := db.reference_space

def SpaceDB.highest_resolution (db : SpaceDB) : ℕ := 0

/-- Source `lowest_resolution`: `self.resolutions.len() - 1` (truncated subtraction;
the source's `usize` underflow on an empty ladder surfaces later as an
out-of-range panic, modelled by `none` at the indexing sites). -/
def SpaceDB.lowest_resolution (db : SpaceDB) : ℕ := db.resolutions.length - 1

def SpaceDB.is_empty (db : SpaceDB) : Bool := db.values.isEmpty

/-- Source `default_resolution`: first level whose threshold is at least the query
volume, else the coarsest. -/
def SpaceDB.default_resolution (db : SpaceDB) (volume : F64) : ℕ :=
  match firstIdx (fun r => decide (F64.le volume r.threshold)) db.resolutions with
  | some i => i
  | none => db.lowest_resolution

/-- Rust's `PartialOrd`/`Ord` for integer slices: lexicographic comparison,
a strict prefix being smaller.  This is the `<=` applied between the query
scale slice and each level's scale vector in `find_resolution`. -/
def lexLe : List ℕ → List ℕ → Bool
  | [], _ => true
  | _ :: _, [] => false
  | a :: as1, b :: bs1 => if a < b then true else if b < a then false else lexLe as1 bs1

/-- Source `find_resolution`: first level whose scale vector is (lexicographically)
at least the requested scale, else the coarsest (with a warning). -/
def SpaceDB.find_resolution (db : SpaceDB) (scale : List ℕ) : ℕ :=
  match firstIdx (fun r => lexLe scale r.scale) db.resolutions with
  | some i => i
  | none => db.lowest_resolution

/-- Source `get_resolution`: an explicit scale wins, else the threshold volume,
else the coarsest level. -/
def SpaceDB.get_resolution (db : SpaceDB) (parameters : CoreQueryParameters) : ℕ :=
  match parameters.resolution with
  | none =>
      match parameters.threshold_volume with
      | some tv => db.default_resolution tv
      | none => db.lowest_resolution
  | some v => db.find_resolution v

/-- Source `decode`: rewrite each value offset back to the dictionary entry
(`self.values[o.value().u64() as usize]`, fatal when out of range). -/
def SpaceDB.decode (db : SpaceDB) : List SpaceSetObject → Option (List SpaceSetObject)
  | [] => some []
  | o :: os =>
      match db.values[Coordinate.u64 (SpaceSetObject.value o)]? with
      | none => none
      | some v => (db.decode os).map (fun rest => SpaceSetObject.set_value o v :: rest)

/-- Source `get_by_id`: binary-search the dictionary for the caller id (absent →
`Ok(vec![])`), select the level, `find_by_value` with the space fingerprint,
filter by the viewport when present, and restore the caller's id as the
value of every result.  The outer `Option` models panics (out-of-range
ladder index). -/
def SpaceDB.get_by_id (db : SpaceDB) (id : ℕ) (parameters : CoreQueryParameters) :
    Option (Except String (List SpaceSetObject)) :=
  match firstIdx (fun c => c == (Int.ofNat id)) db.values with
  | none => some (Except.ok [])
  | some offset =>
      let index := db.get_resolution parameters
      match parameters.space db.reference_space with
      | Except.error e => some (Except.error e)
      | Except.ok space =>
          let view_port := parameters.view_port_encoded space
          match db.resolutions[index]? with
          | none => none
          | some res =>
              let objects := res.find_by_value (SpaceFields.mk db.name (Int.ofNat offset))
              let results : List SpaceSetObject := match view_port with
                | some vp => objects.filter (fun o => vp.contains o.position)
                | none => objects
              some (Except.ok (results.map (fun o => o.set_value (Int.ofNat id))))

/-- Source `get_by_positions`: select the level, run exact `find` for every
requested position, concatenate, decode the values.  NOTE: the viewport
conversion and filtering are commented out in the source (`FIXME`), so no
viewport is applied here; the two undefined identifiers of the source
(`get_resolution(threshold_volume, resolution)` and `decode_value`) are read
as `get_resolution(parameters)` and `decode`, their evident intent. -/
def SpaceDB.get_by_positions (db : SpaceDB) (positions : List Position)
    (parameters : CoreQueryParameters) : Option (Except String (List SpaceSetObject)) :=
  let index := db.get_resolution parameters
  match db.resolutions[index]? with
  | none => none
  | some res =>
      let results := positions.flatMap (fun p => res.find p)
      match db.decode results with
      | none => none
      | some results => some (Except.ok results)

/-! Section: Shared concrete instances used by witnesses and counterexamples -/

def demoSpace : Space := Space.mk "s" (F64.mk 1 1)

def demoObj : SpaceSetObject := SpaceSetObject.mk (Position.positionN [5, 5, 5]) 0

def demoDB : SpaceDB := SpaceDB.mk "s" [7] [SpaceIndex.mk (F64.mk 1 1) [0, 0, 0] [demoObj]]

def demoParams : CoreQueryParameters := CoreQueryParameters.mk [("s", demoSpace)] none none none

def vpIn : Shape := Shape.boundingBox (Position.positionN [0, 0, 0]) (Position.positionN [9, 9, 9])

def vpOut : Shape := Shape.boundingBox (Position.positionN [0, 0, 0]) (Position.positionN [1, 1, 1])

def demoParamsVpIn : CoreQueryParameters := CoreQueryParameters.mk [("s", demoSpace)] none (some vpIn) none

def demoParamsVpOut : CoreQueryParameters := CoreQueryParameters.mk [("s", demoSpace)] none (some vpOut) none

def scaleDB : SpaceDB :=
  SpaceDB.mk "s2" []
    [SpaceIndex.mk (F64.mk 1 2) [1, 1, 1] [], SpaceIndex.mk (F64.mk 1 1) [2, 2, 2] []]

def scaleParams : CoreQueryParameters := CoreQueryParameters.mk [] none none (some [0, 2, 2])

/-! Section: Claim C9 -/

/-- C9 (counterexample): indexed access past the dimension is *not* fatal for
`d = 1`: `Position1` ignores the index, so reading index 7 of a 1-dimensional
position silently returns the single coordinate and writing index 7 silently
overwrites it, contradicting the claim that out-of-range access aborts for
every dimension `d ≥ 1` including `d = 1`. -/
theorem c9_counterexample :
    Position.get (Position.position1 5) 7 = some 5 ∧
    Position.get (Position.position1 5) 7 ≠ none ∧
    Position.set (Position.position1 5) 7 9 = some (Position.position1 9) := by
  refine ⟨rfl, by decide, rfl⟩

/-- C9 (amended): for vector-backed positions (every position of dimension
`≥ 2`, and `PositionN` vectors generally) indexed access past the dimension
is fatal (`none`), whereas the one-dimensional representation `Position1`
ignores the index entirely: any index reads or writes the single
coordinate. -/
theorem c9_amended :
    (∀ (cs : List Coordinate) (k : ℕ), cs.length ≤ k →
      Position.get (Position.positionN cs) k = none ∧
      ∀ v, Position.set (Position.positionN cs) k v = none) ∧
    (∀ (c : Coordinate) (k : ℕ),
      Position.get (Position.position1 c) k = some c ∧
      ∀ v, Position.set (Position.position1 c) k v = some (Position.position1 v)) := by
  constructor
  · intro cs k hk
    constructor
    · simp only [Position.get]
      exact List.getElem?_eq_none_iff.mpr hk
    · intro v
      simp only [Position.set]
      rw [if_neg (by omega)]
  · intro c k
    exact ⟨rfl, fun v => rfl⟩

/-- Witness for C9 (amended) at concrete inputs. -/
theorem c9_witness :
    Position.get (Position.positionN [1, 2]) 5 = none ∧
    Position.set (Position.positionN [1, 2]) 5 0 = none ∧
    Position.get (Position.position1 3) 9 = some 3 ∧
    Position.set (Position.position1 3) 9 0 = some (Position.position1 0) :=
  ⟨(c9_amended.1 [1, 2] 5 (by decide)).1, (c9_amended.1 [1, 2] 5 (by decide)).2 0,
   (c9_amended.2 3 9).1, (c9_amended.2 3 9).2 0⟩

/-! Section: Claim C10 -/

theorem Position.get_lt_isSome (p : Position) (k : ℕ) (hk : k < p.dimensions) :
    ∃ a, p.get k = some a := by
  cases p with
  | position1 c => exact ⟨c, rfl⟩
  | positionN cs =>
      refine ⟨cs.getD k 0, ?_⟩
      simp only [Position.get]
      rw [List.getD_eq_getElem cs 0 hk]
      exact (List.getElem?_eq_some_getElem_iff cs k hk).mpr trivial

theorem Position.eqAux_all_eq (p q : Position) :
    ∀ n i, (∀ k, i ≤ k → k < i + n → ∃ a, p.get k = some a ∧ q.get k = some a) →
      Position.eqAux p q i n = some true := by
  intro n
  induction n with
  | zero => intro i _; rfl
  | succ n ih =>
      intro i hall
      rcases hall i le_rfl (by omega) with ⟨a, hpa, hqa⟩
      simp only [Position.eqAux, hpa, hqa, ne_eq, not_true_eq_false, if_neg, ite_false]
      simpa using ih (i + 1) (fun k hk1 hk2 => hall k (by omega) (by omega))

theorem Position.eqAux_short (q : Position) (cs : List Coordinate) :
    ∀ n i, i + n = q.dimensions → i ≤ cs.length → cs.length < q.dimensions →
      Position.eqAux q (Position.positionN cs) i n ≠ some true := by
  intro n
  induction n with
  | zero => intro i h1 h2 h3; omega
  | succ n ih =>
      intro i h1 h2 h3
      by_cases hi : i = cs.length
      · have hnone : (Position.positionN cs).get i = none := by
          simp only [Position.get]
          exact List.getElem?_eq_none_iff.mpr (by omega)
        rcases Position.get_lt_isSome q i (by omega) with ⟨a, hqa⟩
        simp [Position.eqAux, hqa, hnone]
      · have hi2 : i < cs.length := by omega
        have hsome : (Position.positionN cs).get i = some (cs.getD i 0) := by
          simp only [Position.get]
          rw [List.getD_eq_getElem cs 0 hi2]
          exact (List.getElem?_eq_some_getElem_iff cs i hi2).mpr trivial
        rcases Position.get_lt_isSome q i (by omega) with ⟨a, hqa⟩
        simp only [Position.eqAux, hqa, hsome, ne_eq, ite_not]
        by_cases hab : a = cs.getD i 0
        · rw [if_pos hab]
          exact ih (i + 1) (by omega) (by omega) h3
        · rw [if_neg hab]
          simp

/-- C10 (counterexample): with `p = Position1 5` (dimension 1) and
`q = PositionN [5, 5]` (dimension 2) the forward comparison `p == q` returns
true, as the claim states — but so does the *reverse* comparison `q == p`,
because indexing `Position1` ignores the index; so "q == p does not return
true" is false. -/
theorem c10_counterexample :
    Position.eq (Position.position1 5) (Position.positionN [5, 5]) = some true ∧
    Position.eq (Position.positionN [5, 5]) (Position.position1 5) = some true := by
  refine ⟨by decide, by decide⟩

/-- C10 (amended): equality compares only the first `self.dimensions()`
components, so `p == q` returns true whenever `p` is shorter and the shared
components agree; in the reverse direction, when the shorter operand is
vector-backed the comparison reads past it and aborts (or returns false on
an earlier mismatch) — never true — whereas a `Position1` right operand
answers every index read with its single coordinate, so symmetry can even
hold spuriously (see the counterexample). -/
theorem c10_amended (p q : Position) (cs : List Coordinate) :
    (p.dimensions < q.dimensions → (∀ k, k < p.dimensions → p.get k = q.get k) →
      Position.eq p q = some true) ∧
    (cs.length < q.dimensions → Position.eq q (Position.positionN cs) ≠ some true) := by
  constructor
  · intro hlt hagree
    apply Position.eqAux_all_eq
    intro k hk1 hk2
    rcases Position.get_lt_isSome p k (by omega) with ⟨a, hpa⟩
    exact ⟨a, hpa, (hagree k (by omega)).symm.trans hpa⟩
  · intro hlt
    exact Position.eqAux_short q cs q.dimensions 0 (by omega) (by omega) hlt

/-- Witness for C10 (amended) at concrete inputs. -/
theorem c10_witness :
    Position.eq (Position.position1 5) (Position.positionN [5, 6]) = some true ∧
    Position.eq (Position.positionN [5, 6]) (Position.positionN [5]) ≠ some true :=
  ⟨(c10_amended (Position.position1 5) (Position.positionN [5, 6]) [5]).1 (by decide)
      (by decide),
   (c10_amended (Position.position1 5) (Position.positionN [5, 6]) [5]).2 (by decide)⟩

/-! Section: Claim C7 -/

/-- Modelled from the claim's words, for comparison with the source: the
index of the first level whose stored scale vector is componentwise at least
the requested vector (same width). -/
def first_componentwise_ge (v : List ℕ) (rs : List SpaceIndex) : Option ℕ :=
  firstIdx (fun r => decide (r.scale.length = v.length ∧
    ∀ k, k < v.length → v.getD k 0 ≤ r.scale.getD k 0)) rs

/-- C7 (counterexample): `find_resolution` compares scale vectors with the
Rust slice order, which is *lexicographic*, not componentwise.  On the
ladder built by `new` from explicit scales `[[1,1,1],[2,2,2]]`, the query
scale `[0,2,2]` is lexicographically below `[1,1,1]`, so the code selects
level 0, while the first componentwise-≥ level is level 1. -/
theorem c7_counterexample :
    SpaceDB.new (Space.mk "s2" (F64.mk 1 1)) [] (some [[1, 1, 1], [2, 2, 2]]) none 0 = some scaleDB ∧
    scaleParams.resolution = some [0, 2, 2] ∧
    scaleDB.get_resolution scaleParams = 0 ∧
    first_componentwise_ge [0, 2, 2] scaleDB.resolutions = some 1 := by
  refine ⟨by decide, rfl, by decide, by decide⟩

/-- C7 (amended): with an explicit resolution vector `v`, `get_resolution`
returns the first level whose stored scale vector is *lexicographically*
(Rust slice order) greater than or equal to `v`, and the coarsest level
(index `len - 1`) when no level qualifies. -/
theorem c7_amended (db : SpaceDB) (v : List ℕ) (parameters : CoreQueryParameters) (i : ℕ)
    (hres : parameters.resolution = some v)
    (hget : db.get_resolution parameters = i) :
    (i < db.resolutions.length ∧
      lexLe v (db.resolutions.getD i (SpaceIndex.mk (F64.mk 0 1) [] [])).scale = true ∧
      ∀ j, j < i → lexLe v (db.resolutions.getD j (SpaceIndex.mk (F64.mk 0 1) [] [])).scale = false) ∨
    ((∀ j, j < db.resolutions.length →
        lexLe v (db.resolutions.getD j (SpaceIndex.mk (F64.mk 0 1) [] [])).scale = false) ∧
      i = db.resolutions.length - 1) := by
  simp only [SpaceDB.get_resolution, hres, SpaceDB.find_resolution] at hget
  cases hfi : firstIdx (fun r => lexLe v r.scale) db.resolutions with
  | some j =>
      simp only [hfi] at hget
      cases hget
      rcases firstIdx_some (SpaceIndex.mk (F64.mk 0 1) [] []) hfi with ⟨hlen, hsat, hbefore⟩
      exact Or.inl ⟨hlen, hsat, hbefore⟩
  | none =>
      simp only [hfi] at hget
      cases hget
      refine Or.inr ⟨?_, rfl⟩
      intro j hj
      have hm : db.resolutions.getD j (SpaceIndex.mk (F64.mk 0 1) [] []) ∈ db.resolutions := by
        rw [List.getD_eq_getElem _ _ hj]
        exact List.getElem_mem hj
      exact firstIdx_none hfi _ hm

/-- Witness for C7 (amended): the concrete two-level ladder and query scale
of the counterexample, where the lexicographic first hit is level 0. -/
theorem c7_witness :
    (0 < scaleDB.resolutions.length ∧
      lexLe [0, 2, 2] (scaleDB.resolutions.getD 0 (SpaceIndex.mk (F64.mk 0 1) [] [])).scale = true ∧
      ∀ j, j < 0 → lexLe [0, 2, 2] (scaleDB.resolutions.getD j (SpaceIndex.mk (F64.mk 0 1) [] [])).scale = false) ∨
    ((∀ j, j < scaleDB.resolutions.length →
        lexLe [0, 2, 2] (scaleDB.resolutions.getD j (SpaceIndex.mk (F64.mk 0 1) [] [])).scale = false) ∧
      0 = scaleDB.resolutions.length - 1) :=
  c7_amended scaleDB [0, 2, 2] scaleParams 0 rfl (by decide)

/-! Section: Claim C8 -/

/-- C8 (counterexample): `get_by_positions` applies *no* viewport filter
(the conversion and filtering are commented out in the source with a
`FIXME`): with a viewport that excludes the stored position `[5,5,5]`, the
query still returns the object, whose position the viewport does not
contain. -/
theorem c8_counterexample :
    demoParamsVpOut.view_port = some vpOut ∧
    demoDB.get_by_positions [Position.positionN [5, 5, 5]] demoParamsVpOut =
      some (Except.ok [SpaceSetObject.mk (Position.positionN [5, 5, 5]) 7]) ∧
    vpOut.contains (Position.positionN [5, 5, 5]) = false := by
  refine ⟨rfl, by decide, by decide⟩

/-- C8 (amended): when the parameters carry a viewport, `get_by_id` returns
only objects whose position the viewport contains (and `get_by_shape`
delegates the same filtering to the index contract); `get_by_positions`
applies no viewport filter, so its results may lie outside the viewport. -/
theorem c8_amended (db : SpaceDB) (id : ℕ) (parameters : CoreQueryParameters) (vp : Shape)
    (l : List SpaceSetObject)
    (hvp : parameters.view_port = some vp)
    (h : db.get_by_id id parameters = some (Except.ok l)) :
    ∀ o ∈ l, vp.contains o.position = true := by
  simp only [SpaceDB.get_by_id] at h
  cases hfi : firstIdx (fun c => c == Int.ofNat id) db.values with
  | none =>
      simp only [hfi] at h
      cases h
      intro o ho
      cases ho
  | some offset =>
      simp only [hfi] at h
      cases hsp : parameters.space db.reference_space with
      | error e => simp only [hsp] at h; simp at h
      | ok space =>
          simp only [hsp, CoreQueryParameters.view_port_encoded, hvp] at h
          cases hres : db.resolutions[db.get_resolution parameters]? with
          | none => simp only [hres] at h; simp at h
          | some res =>
              simp only [hres, Option.some.injEq, Except.ok.injEq] at h
              subst h
              intro o ho
              simp only [List.mem_map] at ho
              rcases ho with ⟨o1, ho1, rfl⟩
              have := List.of_mem_filter ho1
              simpa [SpaceSetObject.set_value] using this

/-- Witness for C8 (amended): the demo database with a viewport containing
the stored position; the returned object is inside the viewport. -/
theorem c8_witness :
    vpIn.contains (SpaceSetObject.mk (Position.positionN [5, 5, 5]) 7).position = true :=
  c8_amended demoDB 7 demoParamsVpIn vpIn
    [SpaceSetObject.mk (Position.positionN [5, 5, 5]) 7] rfl (by decide)
    (SpaceSetObject.mk (Position.positionN [5, 5, 5]) 7) (by decide)

/-! Section: Claim C6 -/

/-- C6: `get_by_id` returns `Ok([])` when the id is absent from the value
dictionary, and every returned object carries exactly the queried id as its
value. -/
theorem c6_get_by_id (db : SpaceDB) (id : ℕ) (parameters : CoreQueryParameters)
    (l : List SpaceSetObject)
    (h : db.get_by_id id parameters = some (Except.ok l)) :
    ((Int.ofNat id ∉ db.values) → l = []) ∧ ∀ o ∈ l, o.value = Int.ofNat id := by
  simp only [SpaceDB.get_by_id] at h
  cases hfi : firstIdx (fun c => c == Int.ofNat id) db.values with
  | none =>
      simp only [hfi] at h
      cases h
      exact ⟨fun _ => rfl, fun o ho => absurd ho (List.not_mem_nil o)⟩
  | some offset =>
      simp only [hfi] at h
      have hmem : Int.ofNat id ∈ db.values := by
        rcases firstIdx_some (0 : Coordinate) hfi with ⟨hlen, hsat, -⟩
        have heq : db.values.getD offset 0 = Int.ofNat id := by
          simpa using hsat
        rw [← heq, List.getD_eq_getElem _ _ hlen]
        exact List.getElem_mem hlen
      cases hsp : parameters.space db.reference_space with
      | error e => simp only [hsp] at h; simp at h
      | ok space =>
          simp only [hsp] at h
          cases hres : db.resolutions[db.get_resolution parameters]? with
          | none => simp only [hres] at h; simp at h
          | some res =>
              simp only [hres] at h
              cases hvp : parameters.view_port_encoded space with
              | none =>
                  simp only [hvp, Option.some.injEq, Except.ok.injEq] at h
                  subst h
                  refine ⟨fun hne => absurd hmem hne, ?_⟩
                  intro o ho
                  simp only [List.mem_map] at ho
                  rcases ho with ⟨o1, -, rfl⟩
                  rfl
              | some vp =>
                  simp only [hvp, Option.some.injEq, Except.ok.injEq] at h
                  subst h
                  refine ⟨fun hne => absurd hmem hne, ?_⟩
                  intro o ho
                  simp only [List.mem_map] at ho
                  rcases ho with ⟨o1, -, rfl⟩
                  rfl

/-- Witness for C6 at concrete inputs: querying id 7 on the demo database
returns the stored object with value 7. -/
theorem c6_witness :
    (SpaceSetObject.mk (Position.positionN [5, 5, 5]) 7).value = Int.ofNat 7 :=
  (c6_get_by_id demoDB 7 demoParams [SpaceSetObject.mk (Position.positionN [5, 5, 5]) 7]
      (by decide)).2
    (SpaceSetObject.mk (Position.positionN [5, 5, 5]) 7) (by decide)

/-! Section: Claim C4 -/

/-- Helper: `Shape.gen` equals the specification enumeration `boxEnum`
applied to the `u64` views of the corners, when the corners share a
dimension. -/
theorem gen_eq_boxEnum (lo hi : Position) (hdim : lo.dimensions = hi.dimensions) :
    Shape.gen lo hi =
      (boxEnum (lo.coords.map Coordinate.u64) (hi.coords.map Coordinate.u64)).map
        (fun s => Position.ofCoords (s.map Int.ofNat)) := by
  unfold Shape.gen
  rw [genRun_eq_boxEnum]
  simp [coords_length, hdim]

/-- C4 (counterexample): a bounding box with `lo[k] = hi[k]` does *not*
rasterise to the empty list: the enumerator always emits the (compacted)
lower corner before testing the bound, so `BoundingBox([0],[0])` yields the
single point `[0]` even though no grid point satisfies `0 ≤ s < 0`. -/
theorem c4_counterexample :
    Shape.rasterise (Shape.boundingBox (Position.position1 0) (Position.position1 0)) =
      some [Position.position1 0] ∧
    ([Position.position1 0] : List Position) ≠ [] := by
  constructor
  · have h := gen_eq_boxEnum (Position.position1 0) (Position.position1 0) rfl
    calc Shape.rasterise (Shape.boundingBox (Position.position1 0) (Position.position1 0))
        = some (Shape.gen (Position.position1 0) (Position.position1 0)) := rfl
      _ = some [Position.position1 0] := by rw [h]; decide
  · simp

/-- C4 (amended): for a BoundingBox whose corners share a dimension,
`rasterise` returns exactly the lexicographic (last-dimension-fastest)
enumeration of the grid points `s` with
`lo[k] ≤ s[k] < max (hi[k], lo[k] + 1)` in the `u64` view for every `k`:
the upper bound is exclusive in every non-degenerate dimension, but a
dimension with `hi[k] ≤ lo[k]` is pinned at `lo[k]` instead of emptying the
result, and the enumeration is never empty. -/
theorem c4_amended (lo hi : Position) (hdim : lo.dimensions = hi.dimensions) :
    Shape.rasterise (Shape.boundingBox lo hi) =
      some ((boxEnum (lo.coords.map Coordinate.u64) (hi.coords.map Coordinate.u64)).map
        (fun s => Position.ofCoords (s.map Int.ofNat))) ∧
    boxEnum (lo.coords.map Coordinate.u64) (hi.coords.map Coordinate.u64) ≠ [] ∧
    ∀ s : List ℕ,
      (s ∈ boxEnum (lo.coords.map Coordinate.u64) (hi.coords.map Coordinate.u64) ↔
        s.length = lo.dimensions ∧
        ∀ k, k < lo.dimensions →
          (lo.coords.map Coordinate.u64).getD k 0 ≤ s.getD k 0 ∧
          s.getD k 0 < max ((lo.coords.map Coordinate.u64).getD k 0 + 1)
            ((hi.coords.map Coordinate.u64).getD k 0)) := by
  have hlen : (lo.coords.map Coordinate.u64).length = (hi.coords.map Coordinate.u64).length := by
    simp [coords_length, hdim]
  refine ⟨?_, ?_, ?_⟩
  · calc Shape.rasterise (Shape.boundingBox lo hi) = some (Shape.gen lo hi) := rfl
      _ = _ := by rw [gen_eq_boxEnum lo hi hdim]
  · rcases boxEnum_exists_mem (lo.coords.map Coordinate.u64) (hi.coords.map Coordinate.u64)
      with ⟨t, ht⟩
    exact List.ne_nil_of_mem ht
  · intro s
    have h := boxEnum_mem_iff (lo.coords.map Coordinate.u64) (hi.coords.map Coordinate.u64)
      hlen s
    rw [h]
    simp [coords_length]

/-- Witness for C4 (amended) at a concrete degenerate box: `lo = [0, 1]`,
`hi = [2, 1]` (the second dimension is degenerate). -/
theorem c4_witness :
    Shape.rasterise (Shape.boundingBox (Position.positionN [0, 1]) (Position.positionN [2, 1])) =
      some ((boxEnum [0, 1] [2, 1]).map (fun s => Position.ofCoords (s.map Int.ofNat))) ∧
    boxEnum [0, 1] [2, 1] ≠ [] ∧
    ∀ s : List ℕ,
      (s ∈ boxEnum [0, 1] [2, 1] ↔
        s.length = 2 ∧
        ∀ k, k < 2 → ([0, 1].getD k 0 ≤ s.getD k 0 ∧
          s.getD k 0 < max ([0, 1].getD k 0 + 1) ([2, 1].getD k 0))) :=
  c4_amended (Position.positionN [0, 1]) (Position.positionN [2, 1]) rfl

/-! Section: Claim C5 -/

/-- The `norm() <= radius` test of the source is exactly the squared
comparison of `normLeB`: both sides are non-negative. -/
theorem normLeB_iff_sqrt (d : Position) (r : Coordinate) :
    normLeB d r = true ↔ Real.sqrt ((d.sumSq : ℤ) : ℝ) ≤ ((r : ℤ) : ℝ) := by
  rw [Real.sqrt_le_iff]
  unfold normLeB
  rw [decide_eq_true_iff]
  constructor
  · rintro ⟨hr, hs⟩
    constructor
    · exact_mod_cast hr
    · have : ((d.sumSq : ℤ) : ℝ) ≤ ((r * r : ℤ) : ℝ) := by exact_mod_cast hs
      calc ((d.sumSq : ℤ) : ℝ) ≤ ((r * r : ℤ) : ℝ) := this
        _ = ((r : ℤ) : ℝ) ^ 2 := by push_cast; ring
  · rintro ⟨hr, hs⟩
    constructor
    · exact_mod_cast hr
    · have : ((d.sumSq : ℤ) : ℝ) ≤ ((r * r : ℤ) : ℝ) := by
        calc ((d.sumSq : ℤ) : ℝ) ≤ ((r : ℤ) : ℝ) ^ 2 := hs
          _ = ((r * r : ℤ) : ℝ) := by push_cast; ring
      exact_mod_cast this

theorem raster_filter_some (center : Position) (radius : Coordinate) :
    ∀ ps : List Position, (∀ p ∈ ps, p.dimensions = center.dimensions) →
      ∃ l, raster_filter ps center radius = some l ∧
        ∀ x, x ∈ l ↔ x ∈ ps ∧ normLeB (x.subU center) radius = true := by
  intro ps
  induction ps with
  | nil =>
      intro _
      exact ⟨[], rfl, by simp⟩
  | cons p ps ih =>
      intro hall
      have hsub : p.sub center = some (p.subU center) := by
        unfold Position.sub
        rw [if_pos (hall p (List.mem_cons_self p ps))]
      rcases ih (fun q hq => hall q (List.mem_cons_of_mem p hq)) with ⟨rest, hrest, hiff⟩
      refine ⟨if normLeB (p.subU center) radius then p :: rest else rest, ?_, ?_⟩
      · simp only [raster_filter, hsub, hrest]
      · intro x
        by_cases hn : normLeB (p.subU center) radius
        · rw [if_pos hn]
          constructor
          · intro hx
            rcases List.mem_cons.mp hx with rfl | hx
            · exact ⟨List.mem_cons_self x ps, hn⟩
            · rcases (hiff x).mp hx with ⟨hx1, hx2⟩
              exact ⟨List.mem_cons_of_mem p hx1, hx2⟩
          · rintro ⟨hx1, hx2⟩
            rcases List.mem_cons.mp hx1 with rfl | hx1
            · exact List.mem_cons_self x rest
            · exact List.mem_cons_of_mem p ((hiff x).mpr ⟨hx1, hx2⟩)
        · rw [if_neg hn]
          constructor
          · intro hx
            rcases (hiff x).mp hx with ⟨hx1, hx2⟩
            exact ⟨List.mem_cons_of_mem p hx1, hx2⟩
          · rintro ⟨hx1, hx2⟩
            rcases List.mem_cons.mp hx1 with rfl | hx1
            · exact absurd hx2 hn
            · exact (hiff x).mpr ⟨hx1, hx2⟩

/-- C5: rasterising `HyperSphere(c, r)` succeeds and returns exactly those
points of the bounding-box enumeration (`Shape.gen` on the corners returned
by `get_mbb`) whose Euclidean distance to the center is at most the radius
in the float view; in particular no returned point lies farther than `r`
from the center. -/
theorem c5_hypersphere (c : Position) (r : Coordinate) :
    ∃ lo hi pts, Shape.get_mbb (Shape.hyperSphere c r) = some (lo, hi) ∧
      Shape.rasterise (Shape.hyperSphere c r) = some pts ∧
      ∀ p, p ∈ pts ↔ (p ∈ Shape.gen lo hi ∧
        Real.sqrt (((p.subU c).sumSq : ℤ) : ℝ) ≤ ((r : ℤ) : ℝ)) := by
  rcases hyperSphere_mbb c r with ⟨lo, hi, hmbb, hlo, hhi⟩
  have hdims : ∀ p ∈ Shape.gen lo hi, p.dimensions = c.dimensions := by
    intro p hp
    rw [gen_dimensions lo hi (hlo.trans hhi.symm) p hp, hlo]
  rcases raster_filter_some c r (Shape.gen lo hi) hdims with ⟨l, hfil, hiff⟩
  refine ⟨lo, hi, l, hmbb, ?_, ?_⟩
  · simp only [Shape.rasterise, hmbb]
    exact hfil
  · intro p
    rw [hiff p, normLeB_iff_sqrt]

/-! Section: Claim C1 -/

/-- Failing input for C1: two objects with distinct values at the same
position.  Coarsening can never merge them (their values differ), so the
element count stays 2 while the halving target is fixed at 1. -/
def badObjs : List SpaceSetObject :=
  [SpaceSetObject.mk (Position.positionN [0, 0, 0]) 0,
   SpaceSetObject.mk (Position.positionN [0, 0, 0]) 1]

def badSpace : Space := Space.mk "b" (F64.mk 1 1)

/-- On `badObjs` the auto-path loop takes the skip (`continue`) branch at
every iteration — the branch that bypasses both break conditions — so it
never returns, whatever the fuel and iteration counter. -/
theorem auto_loop_badObjs : ∀ fuel count indices,
    auto_loop fuel 2 badObjs 1 count indices = none := by
  intro fuel
  induction fuel with
  | zero => intro count indices; rfl
  | succ fuel ih =>
      intro count indices
      have hcd : coarsen_dedup 1 badObjs = badObjs := by decide
      show auto_loop (fuel + 1) 2 badObjs 1 count indices = none
      simp only [auto_loop, hcd]
      rw [if_pos (by decide : 1 < badObjs.length)]
      exact ih _ _

/-- C1: the coarsening loop of `SpaceDB::new` does *not* always terminate.
On two objects with distinct values at one position, with `scales = None`
and `max_elements = Some 1`: the full-resolution level is emitted with 2
elements, the target becomes `2 / 2 = 1`, and every subsequent coarsening
leaves 2 (value-distinguished) objects, so the skip branch fires forever —
and the skip branch `continue`s *before* the `count == u32::MAX` /
`len <= max_elements` break test, which is therefore never reached.  The
run returns `none` (diverges) for every fuel bound, in particular for fuel
far beyond the claimed `2^32 - 1` iteration cap, even though the emitted
full-resolution level already has at most `max(max_elements, |values|) = 2`
elements. -/
theorem c1_nonterminating : ∀ fuel,
    SpaceDB.new badSpace badObjs none (some 1) fuel = none := by
  intro fuel
  have hval : List.insertionSort u64Le ((badObjs.map (fun o => o.value)).dedup) =
      [0, 1] := by decide
  have hrw : rewrite_values [0, 1] badObjs = some badObjs := by decide
  simp only [SpaceDB.new, hval, hrw]
  have hloop := auto_loop_badObjs fuel 0 [(badObjs, [0, 0, 0], 0)]
  have hmax : max 1 (List.length ([0, 1] : List Coordinate)) = 2 := by decide
  have hhalf : badObjs.length / 2 = 1 := by decide
  rw [hmax, hhalf, hloop]

/-! Section: Claim C2 -/

theorem assemble_resolutions_length (v : F64) (idx : List IndexEntry) :
    (assemble_resolutions v idx).length = idx.length := by
  simp [assemble_resolutions, List.length_insertionSort]

theorem assemble_resolutions_pairwise (v : F64) (idx : List IndexEntry) :
    List.Pairwise (fun a b => F64.le a.threshold b.threshold) (assemble_resolutions v idx) := by
  have h := List.sorted_insertionSort thresholdLe
    (idx.map (fun e =>
      SpaceIndex.mk (F64.divPow2 v ((match idx.getLast? with
        | none => 31
        | some e => e.2.2) - e.2.2)) e.2.1 e.1))
  exact h

theorem build_powers_length :
    ∀ (l : List (List ℕ)) (p : ℕ) (ps : List (ℕ × ℕ)), build_powers l p = some ps →
      ps.length = l.length := by
  intro l
  induction l with
  | nil =>
      intro p ps h
      cases h
      rfl
  | cons scale rest ih =>
      intro p ps h
      simp only [build_powers] at h
      by_cases hc : scale.length = 3 ∧ scale.getD 0 0 = scale.getD 1 0 ∧
          scale.getD 0 0 = scale.getD 2 0
      · rw [if_pos hc] at h
        rcases Option.map_eq_some'.mp h with ⟨qs, hqs, rfl⟩
        simp [ih _ _ hqs]
      · rw [if_neg hc] at h
        cases h

theorem apply_scales_length :
    ∀ (ps : List (ℕ × ℕ)) (objs : List SpaceSetObject) (c : ℕ),
      (apply_scales ps objs c).length = ps.length := by
  intro ps
  induction ps with
  | nil => intro objs c; rfl
  | cons p rest ih =>
      intro objs c
      simp [apply_scales, ih]

theorem auto_loop_length :
    ∀ (fuel maxE : ℕ) (objs : List SpaceSetObject) (target count : ℕ)
      (indices out : List IndexEntry),
      auto_loop fuel maxE objs target count indices = some out →
      indices.length ≤ out.length := by
  intro fuel
  induction fuel with
  | zero => intro maxE objs target count indices out h; cases h
  | succ fuel ih =>
      intro maxE objs target count indices out h
      simp only [auto_loop] at h
      by_cases hskip : target < (coarsen_dedup 1 objs).length
      · rw [if_pos hskip] at h
        exact ih _ _ _ _ _ _ h
      · rw [if_neg hskip] at h
        by_cases hbreak : (coarsen_dedup 1 objs).length ≤ maxE ∨
            (count + 1) % 2 ^ 32 = 2 ^ 32 - 1
        · rw [if_pos hbreak] at h
          cases h
          simp
        · rw [if_neg hbreak] at h
          have := ih _ _ _ _ _ _ h
          calc indices.length
              ≤ (indices ++ [(coarsen_dedup 1 objs,
                  [(count + 1) % 2 ^ 32, (count + 1) % 2 ^ 32, (count + 1) % 2 ^ 32],
                  if count ≥ 31 then 31 else count)]).length := by simp
            _ ≤ out.length := this

/-- C2: every successful `SpaceDB::new` (with a non-empty scales list when
scales is supplied) produces a non-empty `resolutions` vector whose
threshold volumes are monotonically non-decreasing. -/
theorem c2_resolutions (reference_space : Space) (space_objects : List SpaceSetObject)
    (scales : Option (List (List ℕ))) (max_elements : Option ℕ) (fuel : ℕ) (db : SpaceDB)
    (hnew : SpaceDB.new reference_space space_objects scales max_elements fuel = some db)
    (hscales : ∀ l, scales = some l → l ≠ []) :
    db.resolutions ≠ [] ∧
    List.Pairwise (fun a b => F64.le a.threshold b.threshold) db.resolutions := by
  simp only [SpaceDB.new] at hnew
  cases hrw : rewrite_values
      (List.insertionSort u64Le ((space_objects.map (fun o => o.value)).dedup)) space_objects with
  | none => rw [hrw] at hnew; cases hnew
  | some objs =>
      rw [hrw] at hnew
      simp only [] at hnew
      cases scales with
      | some l =>
          cases hbp : build_powers (List.insertionSort headLe l) 0 with
          | none => simp only [hbp] at hnew; cases hnew
          | some powers =>
              simp only [hbp, Option.some.injEq] at hnew
              subst hnew
              constructor
              · intro hnil
                have h0 : assemble_resolutions reference_space.volume
                    (apply_scales powers objs 0) = [] := hnil
                have h1 : (assemble_resolutions reference_space.volume
                    (apply_scales powers objs 0)).length = 0 := by rw [h0]; rfl
                rw [assemble_resolutions_length, apply_scales_length,
                  build_powers_length _ _ _ hbp, List.length_insertionSort] at h1
                exact hscales l rfl (List.eq_nil_of_length_eq_zero h1)
              · exact assemble_resolutions_pairwise reference_space.volume
                  (apply_scales powers objs 0)
      | none =>
          cases max_elements with
          | some m =>
              cases hal : auto_loop fuel (max m (List.insertionSort u64Le
                  ((space_objects.map (fun o => o.value)).dedup)).length) objs
                  (objs.length / 2) 0 [(objs, [0, 0, 0], 0)] with
              | none => simp only [hal] at hnew; cases hnew
              | some out =>
                  simp only [hal, Option.some.injEq] at hnew
                  subst hnew
                  constructor
                  · intro hnil
                    have h0 : assemble_resolutions reference_space.volume out = [] := hnil
                    have h1 : (assemble_resolutions reference_space.volume out).length = 0 := by
                      rw [h0]; rfl
                    rw [assemble_resolutions_length] at h1
                    have h2 := auto_loop_length _ _ _ _ _ _ _ hal
                    simp [h1] at h2
                  · exact assemble_resolutions_pairwise reference_space.volume out
          | none =>
              simp only [Option.some.injEq] at hnew
              subst hnew
              constructor
              · intro hnil
                have h0 : assemble_resolutions reference_space.volume
                    [(objs, [0, 0, 0], 0)] = [] := hnil
                have h1 : (assemble_resolutions reference_space.volume
                    [(objs, [0, 0, 0], 0)]).length = 0 := by rw [h0]; rfl
                rw [assemble_resolutions_length] at h1
                simp at h1
              · exact assemble_resolutions_pairwise reference_space.volume [(objs, [0, 0, 0], 0)]

/-- Witness for C2: a one-object build on the auto path without
`max_elements`. -/
theorem c2_witness :
    (SpaceDB.mk "s" [7] [SpaceIndex.mk (F64.mk 1 1) [0, 0, 0]
        [SpaceSetObject.mk (Position.positionN [5, 5, 5]) 0]]).resolutions ≠ [] ∧
    List.Pairwise (fun a b => F64.le a.threshold b.threshold)
      (SpaceDB.mk "s" [7] [SpaceIndex.mk (F64.mk 1 1) [0, 0, 0]
        [SpaceSetObject.mk (Position.positionN [5, 5, 5]) 0]]).resolutions :=
  c2_resolutions demoSpace [SpaceSetObject.mk (Position.positionN [5, 5, 5]) 7] none none 0
    (SpaceDB.mk "s" [7] [SpaceIndex.mk (F64.mk 1 1) [0, 0, 0]
      [SpaceSetObject.mk (Position.positionN [5, 5, 5]) 0]])
    (by decide) (fun l hl => by cases hl)

/-! Section: Claim C3 -/

/-- The sorted deduplicated dictionary is strictly sorted when all values
are non-negative (as caller identifiers, `usize` tokens, always are): the
`u64` key order then coincides with the value order, and deduplication
removes equal values. -/
theorem values_sorted_strict (vs : List Coordinate)
    (hnn : ∀ v ∈ vs, 0 ≤ v) :
    List.Sorted (fun a b => a < b) (List.insertionSort u64Le vs.dedup) := by
  have hsorted : List.Sorted u64Le (List.insertionSort u64Le vs.dedup) :=
    List.sorted_insertionSort u64Le vs.dedup
  have hnodup : (List.insertionSort u64Le vs.dedup).Nodup :=
    ((List.perm_insertionSort u64Le vs.dedup).nodup_iff).mpr (List.nodup_dedup vs)
  have hand := List.Pairwise.and hsorted hnodup
  refine hand.imp_of_mem ?_
  intro a b ha hb hab
  have hamem : a ∈ vs := List.mem_dedup.mp ((List.mem_insertionSort u64Le).mp ha)
  have hbmem : b ∈ vs := List.mem_dedup.mp ((List.mem_insertionSort u64Le).mp hb)
  have ha0 := hnn a hamem
  have hb0 := hnn b hbmem
  rcases hab with ⟨hle, hne⟩
  have htn : a.toNat ≤ b.toNat := hle
  have h1 : (a.toNat : ℤ) = a := Int.toNat_of_nonneg ha0
  have h2 : (b.toNat : ℤ) = b := Int.toNat_of_nonneg hb0
  show a < b
  have hab2 : a ≤ b := by
    rw [← h1, ← h2]
    exact_mod_cast htn
  exact lt_of_le_of_ne hab2 hne

/-- The dictionary invariant of a stored value: it is (the encoding of) a
valid offset into `values`, and the entry there is the original value of
one of the supplied objects. -/
def ValOk (space_objects : List SpaceSetObject) (values : List Coordinate)
    (v : Coordinate) : Prop :=
  ∃ i : ℕ, v = Int.ofNat i ∧ i < values.length ∧
    ∃ o0 ∈ space_objects, values.getD i 0 = o0.value

/-- The value-rewriting pass tags every object with a valid dictionary
offset whose entry is the original value of one of the input objects. -/
theorem rewrite_values_spec (values : List Coordinate) :
    ∀ (objs out : List SpaceSetObject), rewrite_values values objs = some out →
      ∀ o ∈ out, ∃ i : ℕ, o.value = Int.ofNat i ∧ i < values.length ∧
        ∃ o0 ∈ objs, values.getD i 0 = o0.value := by
  intro objs
  induction objs with
  | nil =>
      intro out h o ho
      cases h
      cases ho
  | cons o0 os ih =>
      intro out h o ho
      simp only [rewrite_values] at h
      cases hfi : firstIdx (fun c => c == o0.value) values with
      | none => rw [hfi] at h; cases h
      | some i =>
          rw [hfi] at h
          rcases Option.map_eq_some'.mp h with ⟨rest, hrest, rfl⟩
          rcases List.mem_cons.mp ho with rfl | ho
          · rcases firstIdx_some (0 : Coordinate) hfi with ⟨hlen, hsat, -⟩
            refine ⟨i, rfl, hlen, o0, List.mem_cons_self o0 os, ?_⟩
            simpa using hsat
          · rcases ih rest hrest o ho with ⟨i1, hv, hlen, o1, ho1, hval⟩
            exact ⟨i1, hv, hlen, o1, List.mem_cons_of_mem o0 ho1, hval⟩

/-- Coarsening and deduplicating preserves any property of the values. -/
theorem coarsen_dedup_value {P : Coordinate → Prop} {objs : List SpaceSetObject}
    (h : ∀ o ∈ objs, P o.value) (k : ℕ) :
    ∀ o ∈ coarsen_dedup k objs, P o.value := by
  intro o ho
  rcases List.mem_map.mp (List.mem_dedup.mp ho) with ⟨o0, ho0, rfl⟩
  exact h o0 ho0

theorem apply_scales_inner (P : Coordinate → Prop) :
    ∀ (ps : List (ℕ × ℕ)) (objs : List SpaceSetObject) (c : ℕ),
      (∀ o ∈ objs, P o.value) →
      ∀ e ∈ apply_scales ps objs c, ∀ o ∈ e.1, P o.value := by
  intro ps
  induction ps with
  | nil =>
      intro objs c _ e he
      cases he
  | cons p rest ih =>
      intro objs c hobjs e he
      simp only [apply_scales] at he
      rcases List.mem_cons.mp he with rfl | he
      · exact coarsen_dedup_value hobjs p.2
      · exact ih (coarsen_dedup p.2 objs) (c + 1) (coarsen_dedup_value hobjs p.2) e he

theorem auto_loop_inner (P : Coordinate → Prop) :
    ∀ (fuel maxE : ℕ) (objs : List SpaceSetObject) (target count : ℕ)
      (indices out : List IndexEntry),
      auto_loop fuel maxE objs target count indices = some out →
      (∀ o ∈ objs, P o.value) →
      (∀ e ∈ indices, ∀ o ∈ e.1, P o.value) →
      ∀ e ∈ out, ∀ o ∈ e.1, P o.value := by
  intro fuel
  induction fuel with
  | zero => intro maxE objs target count indices out h; cases h
  | succ fuel ih =>
      intro maxE objs target count indices out h hobjs hind
      simp only [auto_loop] at h
      by_cases hskip : target < (coarsen_dedup 1 objs).length
      · rw [if_pos hskip] at h
        exact ih _ _ _ _ _ _ h (coarsen_dedup_value hobjs 1) hind
      · rw [if_neg hskip] at h
        have hnewind : ∀ e ∈ indices ++ [(coarsen_dedup 1 objs,
            [(count + 1) % 2 ^ 32, (count + 1) % 2 ^ 32, (count + 1) % 2 ^ 32],
            if count ≥ 31 then 31 else count)], ∀ o ∈ e.1, P o.value := by
          intro e he
          rcases List.mem_append.mp he with he | he
          · exact hind e he
          · rcases List.mem_singleton.mp he with rfl
            exact coarsen_dedup_value hobjs 1
        by_cases hbreak : (coarsen_dedup 1 objs).length ≤ maxE ∨
            (count + 1) % 2 ^ 32 = 2 ^ 32 - 1
        · rw [if_pos hbreak] at h
          cases h
          exact hnewind
        · rw [if_neg hbreak] at h
          exact ih _ _ _ _ _ _ h (coarsen_dedup_value hobjs 1) hnewind

/-- Every level assembled into `resolutions` stores one of the emitted
point tables. -/
theorem assemble_resolutions_mem (v : F64) (idx : List IndexEntry) (si : SpaceIndex)
    (h : si ∈ assemble_resolutions v idx) : ∃ e ∈ idx, si.inner = e.1 := by
  unfold assemble_resolutions at h
  rcases List.mem_map.mp ((List.mem_insertionSort thresholdLe).mp h) with ⟨e, he, rfl⟩
  exact ⟨e, he, rfl⟩

/-- C3: after a successful `SpaceDB::new` on objects with (non-negative,
i.e. `usize`-token) values, the dictionary is duplicate-free and strictly
ascending in the integer view, and every object stored in every level
carries a valid dictionary offset whose entry is the original value of one
of the supplied objects. -/
theorem c3_dictionary (reference_space : Space) (space_objects : List SpaceSetObject)
    (scales : Option (List (List ℕ))) (max_elements : Option ℕ) (fuel : ℕ) (db : SpaceDB)
    (hnew : SpaceDB.new reference_space space_objects scales max_elements fuel = some db)
    (hnonneg : ∀ o ∈ space_objects, 0 ≤ o.value) :
    List.Sorted (fun a b => a < b) db.values ∧
    ∀ si ∈ db.resolutions, ∀ o ∈ si.inner, ∃ i : ℕ, o.value = Int.ofNat i ∧
      i < db.values.length ∧ ∃ o0 ∈ space_objects, db.values.getD i 0 = o0.value := by
  simp only [SpaceDB.new] at hnew
  cases hrw : rewrite_values
      (List.insertionSort u64Le ((space_objects.map (fun o => o.value)).dedup)) space_objects with
  | none => rw [hrw] at hnew; cases hnew
  | some objs =>
      rw [hrw] at hnew
      simp only [] at hnew
      have hP := rewrite_values_spec _ _ _ hrw
      have hsorted : List.Sorted (fun a b => a < b)
          (List.insertionSort u64Le ((space_objects.map (fun o => o.value)).dedup)) := by
        apply values_sorted_strict
        intro v hv
        rcases List.mem_map.mp hv with ⟨o, ho, rfl⟩
        exact hnonneg o ho
      cases scales with
      | some l =>
          cases hbp : build_powers (List.insertionSort headLe l) 0 with
          | none => simp only [hbp] at hnew; cases hnew
          | some powers =>
              simp only [hbp, Option.some.injEq] at hnew
              subst hnew
              refine ⟨hsorted, ?_⟩
              intro si hsi o ho
              rcases assemble_resolutions_mem reference_space.volume
                (apply_scales powers objs 0) si hsi with ⟨e, he, hinner⟩
              rw [hinner] at ho
              exact apply_scales_inner
                (ValOk space_objects
                  (List.insertionSort u64Le
                    ((space_objects.map (fun o => SpaceSetObject.value o)).dedup)))
                powers objs 0 hP e he o ho
      | none =>
          cases max_elements with
          | some m =>
              cases hal : auto_loop fuel (max m (List.insertionSort u64Le
                  ((space_objects.map (fun o => o.value)).dedup)).length) objs
                  (objs.length / 2) 0 [(objs, [0, 0, 0], 0)] with
              | none => simp only [hal] at hnew; cases hnew
              | some out =>
                  simp only [hal, Option.some.injEq] at hnew
                  subst hnew
                  refine ⟨hsorted, ?_⟩
                  intro si hsi o ho
                  rcases assemble_resolutions_mem reference_space.volume out si hsi
                    with ⟨e, he, hinner⟩
                  rw [hinner] at ho
                  refine auto_loop_inner
                    (ValOk space_objects
                      (List.insertionSort u64Le
                        ((space_objects.map (fun o => SpaceSetObject.value o)).dedup)))
                    _ _ _ _ _ _ _ hal hP ?_ e he o ho
                  intro e1 he1 o1 ho1
                  rcases List.mem_singleton.mp he1 with rfl
                  exact hP o1 ho1
          | none =>
              simp only [Option.some.injEq] at hnew
              subst hnew
              refine ⟨hsorted, ?_⟩
              intro si hsi o ho
              rcases assemble_resolutions_mem reference_space.volume
                [(objs, [0, 0, 0], 0)] si hsi with ⟨e, he, hinner⟩
              rw [hinner] at ho
              rcases List.mem_singleton.mp he with rfl
              exact hP o ho

/-- Witness for C3: the one-object build; the stored object carries offset
0 and `values[0] = 7`, the originally supplied value. -/
theorem c3_witness :
    List.Sorted (fun a b => a < b)
      (SpaceDB.mk "s" [7] [SpaceIndex.mk (F64.mk 1 1) [0, 0, 0]
        [SpaceSetObject.mk (Position.positionN [5, 5, 5]) 0]]).values ∧
    ∀ si ∈ (SpaceDB.mk "s" [7] [SpaceIndex.mk (F64.mk 1 1) [0, 0, 0]
        [SpaceSetObject.mk (Position.positionN [5, 5, 5]) 0]]).resolutions,
      ∀ o ∈ si.inner, ∃ i : ℕ, o.value = Int.ofNat i ∧
        i < (SpaceDB.mk "s" [7] [SpaceIndex.mk (F64.mk 1 1) [0, 0, 0]
          [SpaceSetObject.mk (Position.positionN [5, 5, 5]) 0]]).values.length ∧
        ∃ o0 ∈ [SpaceSetObject.mk (Position.positionN [5, 5, 5]) 7],
          (SpaceDB.mk "s" [7] [SpaceIndex.mk (F64.mk 1 1) [0, 0, 0]
            [SpaceSetObject.mk (Position.positionN [5, 5, 5]) 0]]).values.getD i 0 = o0.value :=
  c3_dictionary demoSpace [SpaceSetObject.mk (Position.positionN [5, 5, 5]) 7] none none 0
    (SpaceDB.mk "s" [7] [SpaceIndex.mk (F64.mk 1 1) [0, 0, 0]
      [SpaceSetObject.mk (Position.positionN [5, 5, 5]) 0]])
    (by decide) (by decide)
